import Mathlib

/-!
Verification of the resumable parallel batch-processing engine of this
repository (src/csv-json/partition-extensions.js and
src/csv-json/drive-upload.js) against its natural-language specification.

The JavaScript is shallowly embedded: pure helpers become Lean functions,
the progress-tracking state and the checkpoint file become an explicit
state record threaded through the run, the round/batch scheduling loop
becomes a fold over scheduled rounds, and the event-loop mutex of
drive-upload.js becomes a small labelled transition system whose steps are
the synchronous segments between `await` points.
-/

/-! ## JavaScript string primitives used by the partitioner -/

/-- JS `String.prototype.substring(a, b)` for non-negative integer
arguments: both indices are clamped to the string length and swapped when
`a > b`; the characters in `[lo, hi)` are returned. -/
def jsSubstring (s : String) (a b : Nat) : String :=
  let len := s.length
  let lo := min (min a len) (min b len)
  let hi := max (min a len) (min b len)
  ((s.toList.drop lo).take (hi - lo)).asString

/-- `List.isSuffixOf` specialised to characters, executable. -/
def charSuffix (suf l : List Char) : Bool :=
  decide (suf.reverse.isPrefixOf l.reverse)

/-- Node `path.basename(file, ext)` for a plain file name (the batch
entries come from `readdir`, so they contain no directory separator): the
extension is stripped when the name ends with it and is not equal to it. -/
def basenameExt (file ext : String) : String :=
  if charSuffix ext.toList file.toList ∧ file ≠ ext then
    (file.toList.take (file.length - ext.length)).asString
  else
    file

/-- Node `path.extname(file)` for a plain file name: the part of the name
from its last dot, unless that dot is the first character. -/
def extname (file : String) : String :=
  let cs := file.toList
  let tailChars := cs.drop 1
  match (tailChars.reverse.takeWhile (fun c => c ≠ '.')) with
  | rest =>
    if tailChars.contains '.' then ('.' :: rest.reverse).asString else ""

/-- JS `String.prototype.toLowerCase`, restricted to ASCII as in the
source's file extensions. -/
def jsToLower (s : String) : String :=
  (s.toList.map Char.toLower).asString

/-- The filter of `partitionExtensionFiles` (line 175):
`path.extname(file).toLowerCase() === '.json'`. -/
def isJsonFile (file : String) : Bool :=
  jsToLower (extname file) == ".json"

/-! ## The Partitioner: `bin` and the pre-created bin directories -/

/-- The bin of an extension id: its first two characters
(`extensionId.substring(0, 2)`, partition-extensions.js line 119). -/
def bin (extensionId : String) : String :=
  jsSubstring extensionId 0 2

/-- Characters used in Chrome extension IDs (partition-extensions.js
line 81). -/
def binChars : List Char :=
  ['a', 'b', 'c', 'd', 'e', 'f', 'g', 'h', 'i', 'j', 'k', 'l', 'm', 'n', 'o', 'p']

/-- The 256 two-letter bin labels whose directories `createBinDirectories`
materialises up front (lines 88-100). -/
def binLabels : List String :=
  (binChars.map (fun c1 => binChars.map (fun c2 => ([c1, c2]).asString))).flatten

/-! ## The worker: per-item processing -/

/-- The per-item outcome a worker posts back
(partition-extensions.js lines 128, 134, 136). -/
structure Outcome where
  file : String
  success : Bool
  binLabel : Option String
  error : Option String
deriving DecidableEq, Repr

/-- The file-system facts a worker's batch processing consults: which
files exist in `sourceDir` and which bin directories exist under
`targetBaseDir`. -/
structure FS where
  sourceFiles : List String
  binDirs : List String
deriving Repr

/-- One iteration of the `fileBatch.map` of `workerProcess`
(partition-extensions.js lines 113-137): derive the extension id and its
bin, fail when the source file is missing, fail (caught `copyFileSync`
error) when the target bin directory was never created, succeed
otherwise. -/
def processFile (fsm : FS) (file : String) : Outcome :=
  let extensionId := basenameExt file ".json"
  let b := bin extensionId
  if file ∈ fsm.sourceFiles then
    if b ∈ fsm.binDirs then
      { file := file, success := true, binLabel := some b, error := none }
    else
      { file := file, success := false, binLabel := none,
        error := some "ENOENT: no such file or directory" }
  else
    { file := file, success := false, binLabel := none,
      error := some "Source file does not exist" }

/-- `workerProcess` on one batch: one outcome per item, in order; an
item's failure is caught inside the `map` and never aborts the rest of
the batch. -/
def workerProcess (fsm : FS) (fileBatch : List String) : List Outcome :=
  fileBatch.map (processFile fsm)

/-! ## ProgressTracker and the checkpoint file -/

/-- The progress state of partition-extensions.js:
`progress.processedFiles` in memory, and `savedFiles`, the
`processedFiles` list currently persisted in `partition_progress.json`. -/
structure TrackState where
  processedFiles : List String
  savedFiles : List String
deriving DecidableEq, Repr

/-- `ProgressTracker.save` (lines 46-53): writes the full current
`processedFiles` list to the checkpoint file. -/
def trackerSave (st : TrackState) : TrackState :=
  { st with savedFiles := st.processedFiles }

/-- `ProgressTracker.markFileProcessed` (lines 61-71): push the file name
if it is not already present; when a push makes the length a multiple of
100, also save. Re-adding a present file is a no-op. -/
def markFileProcessed (st : TrackState) (filename : String) : TrackState :=
  if filename ∈ st.processedFiles then st
  else
    let l := st.processedFiles ++ [filename]
    { processedFiles := l,
      savedFiles := if l.length % 100 = 0 then l else st.savedFiles }

/-- `ProgressTracker.isFileProcessed` (lines 56-58). -/
def isFileProcessed (st : TrackState) (filename : String) : Bool :=
  st.processedFiles.contains filename

/-! ## The aggregator: consuming worker results in the main thread -/

/-- The main thread's mutable run state: the tracker state plus the
`processed` and `errors` counters of `partitionExtensionFiles`
(lines 190-191). -/
structure AggState where
  track : TrackState
  processed : Nat
  errors : Nat
deriving DecidableEq, Repr

/-- Handling one result inside the worker `message` handler
(lines 231-247): a success bumps `processed` and marks the file; a
failure is logged and bumps only `errors`. -/
def consumeOutcome (ag : AggState) (r : Outcome) : AggState :=
  if r.success then
    { ag with processed := ag.processed + 1,
              track := markFileProcessed ag.track r.file }
  else
    { ag with errors := ag.errors + 1 }

/-- What a worker does, seen from the main thread: either it posts a
message (its results list, or the error object of its outer catch,
lines 144-148), or its `error` event fires, or it exits abnormally with
a non-zero code without having posted anything. -/
inductive WorkerBehavior where
  | results (rs : List Outcome)
  | fatalMessage (message : String)
  | errorEvent (message : String)
  | abnormalExit (code : Nat)
deriving DecidableEq, Repr

/-- The effect of one worker on the aggregator state, together with
whether its promise rejected (lines 219-267): posted results are consumed
one by one; a posted error object counts the whole batch as failed and
resolves; an `error` event counts the whole batch as failed and rejects;
a non-zero exit rejects without touching the counters. -/
def runWorker (ag : AggState) (fileBatch : List String) (b : WorkerBehavior) :
    AggState × Bool :=
  match b with
  | .results rs => (rs.foldl consumeOutcome ag, false)
  | .fatalMessage _ => ({ ag with errors := ag.errors + fileBatch.length }, false)
  | .errorEvent _ => ({ ag with errors := ag.errors + fileBatch.length }, true)
  | .abnormalExit _ => (ag, true)

/-- One scheduling round: a batch and a behavior for each spawned
worker. -/
def Round : Type := List (List String × WorkerBehavior)

/-- One iteration of the outer batch loop (lines 201-301): run the
round's workers, apply every delivered effect, then — only when no worker
promise rejected — perform the end-of-round `ProgressTracker.save`
(line 296); a rejection lands in the catch (line 297) which skips the
save and continues with the next round. -/
def workerFold (acc : AggState × Bool) (p : List String × WorkerBehavior) :
    AggState × Bool :=
  let step := runWorker acc.1 p.1 p.2
  (step.1, acc.2 || step.2)

def roundStep (ag : AggState) (round : Round) : AggState :=
  let res := round.foldl workerFold (ag, false)
  if res.2 then res.1 else { res.1 with track := trackerSave res.1.track }

/-- Executing a sequence of rounds. -/
def execRounds (ag : AggState) (rounds : List Round) : AggState :=
  rounds.foldl roundStep ag

/-! ## The scheduler: slicing `filesToProcess` into rounds and batches -/

/-- Fuelled chunking helper. -/
def chunksGo {α : Type} : Nat → Nat → List α → List (List α)
  | _, _, [] => []
  | 0, _, _ :: _ => []
  | fuel + 1, n, x :: l => ((x :: l).take n) :: chunksGo fuel n ((x :: l).drop n)

/-- Split a list into consecutive chunks of size `n` (the last chunk may
be shorter); empty for `n = 0`. -/
def chunks {α : Type} (n : Nat) (l : List α) : List (List α) :=
  if n = 0 then [] else chunksGo l.length n l

/-- The batches of the outer loop (lines 201-209): round `i` covers
`filesToProcess.slice(i·B·W, (i+1)·B·W)`, and within a round worker `w`
receives the slice `[w·B, (w+1)·B)` of the round's files. -/
def scheduleRounds (B W : Nat) (filesToProcess : List String) :
    List (List (List String)) :=
  (chunks (B * W) filesToProcess).map (chunks B)

/-- The behavior list of a round in which every worker runs to completion
and posts its per-item results. -/
def normalRound (fsm : FS) (batches : List (List String)) : Round :=
  batches.map (fun b => (b, WorkerBehavior.results (workerProcess fsm b)))

/-! ## `partitionExtensionFiles`: a whole run -/

/-- The candidate set of a run (lines 172-175): the source listing
filtered to `.json` files. -/
def jsonCandidates (fsm : FS) : List String :=
  fsm.sourceFiles.filter (fun f => isJsonFile f)

/-- The diff step (line 178): candidates not yet recorded as processed
by the loaded progress. -/
def filesToProcess (fsm : FS) (st : TrackState) : List String :=
  (jsonCandidates fsm).filter (fun f => ¬ isFileProcessed st f)

/-- `partitionExtensionFiles` with every worker completing normally
(lines 155-335): compute the diff, return untouched when nothing remains
(line 186, before any worker is created), otherwise execute the scheduled
rounds and perform the final save of line 304.  `B` and `W` are
`BATCH_SIZE` and `MAX_WORKERS`. -/
def partitionExtensionFiles (fsm : FS) (B W : Nat) (st : TrackState) : AggState :=
  let todo := filesToProcess fsm st
  if todo.isEmpty then { track := st, processed := 0, errors := 0 }
  else
    let ag := execRounds { track := st, processed := 0, errors := 0 }
      ((scheduleRounds B W todo).map (normalRound fsm))
    { ag with track := trackerSave ag.track }

/-- A full run followed by what the next run loads: the checkpoint file's
contents become both the in-memory list and the saved list. -/
def runFrom (fsm : FS) (B W : Nat) (c0 : List String) : AggState :=
  partitionExtensionFiles fsm B W { processedFiles := c0, savedFiles := c0 }

/-! ## drive-upload.js: the batched uploader -/

/-- `MAX_CONCURRENT_UPLOADS` (drive-upload.js line 11). -/
def MAX_CONCURRENT_UPLOADS : Nat := 30

/-- JS `if (!list.includes(x)) list.push(x)`. -/
def pushUnique (l : List String) (x : String) : List String :=
  if x ∈ l then l else l ++ [x]

/-- The shared `progress` object of drive-upload.js (lines 53-59), minus
the mutex flag, which lives in the event-loop model below. -/
structure UProgress where
  uploaded : Nat
  failed : Nat
  total : Nat
  completedFiles : List String
deriving DecidableEq, Repr

/-- `processAndUploadFile` (lines 86-137), with the environment `env`
telling which relative paths read, parse and upload successfully. On
success the path is pushed (if absent) and `uploaded` bumped inside
`updateProgressAtomic`; on failure only `failed` is bumped and the error
is rethrown — the second component records whether the promise
fulfilled. -/
def processAndUploadFile (env : String → Bool) (pg : UProgress)
    (relativePath : String) : UProgress × Bool :=
  if env relativePath then
    ({ pg with completedFiles := pushUnique pg.completedFiles relativePath,
               uploaded := pg.uploaded + 1 }, true)
  else
    ({ pg with failed := pg.failed + 1 }, false)

/-- One batch of concurrent uploads (lines 63-71): every promise of the
batch runs to settlement and applies its effect; `Promise.all` fulfils
only when none rejected. -/
def uploadBatch (env : String → Bool) (pg : UProgress) (batch : List String) :
    UProgress × Bool :=
  batch.foldl
    (fun (acc : UProgress × Bool) f =>
      let st := processAndUploadFile env acc.1 f
      (st.1, acc.2 && st.2))
    (pg, true)

/-- The uploader's run state: the shared progress object plus the
contents of `upload-progress.json`. -/
structure UState where
  progress : UProgress
  savedCheckpoint : List String
deriving DecidableEq, Repr

/-- The batch loop of `uploadDirectoryWithTransferManager` (lines 61-82):
after a fulfilled batch, `saveProgress` persists `completedFiles` and the
loop continues; a rejected batch propagates to the catch at line 80,
which sits outside the loop, so the remaining batches are skipped and the
rejected batch's save never happens. -/
def uploadLoop (env : String → Bool) : UState → List (List String) → UState
  | st, [] => st
  | st, b :: rest =>
    let res := uploadBatch env st.progress b
    if res.2 then
      uploadLoop env
        { progress := res.1, savedCheckpoint := res.1.completedFiles } rest
    else
      { progress := res.1, savedCheckpoint := st.savedCheckpoint }

/-- `uploadDirectoryWithTransferManager` (lines 24-83): load the
checkpoint, diff the enumerated relative paths against it, and run the
batch loop on `MAX_CONCURRENT_UPLOADS`-sized slices. -/
def uploadDirectoryWithTransferManager (env : String → Bool)
    (allFiles checkpoint0 : List String) : UState :=
  let filesToUpload := allFiles.filter (fun f => !(checkpoint0.contains f))
  uploadLoop env
    { progress := { uploaded := 0, failed := 0, total := filesToUpload.length,
                    completedFiles := checkpoint0 },
      savedCheckpoint := checkpoint0 }
    (chunks MAX_CONCURRENT_UPLOADS filesToUpload)

/-! ## The checkpoint file format and the two loaders -/

/-- JSON values, as produced by `JSON.parse`. -/
inductive Json where
  | null
  | bool (b : Bool)
  | num (n : Int)
  | str (s : String)
  | arr (elems : List Json)
  | obj (fields : List (String × Json))

/-- JS member access `j.key` on a parsed value: the field when `j` is an
object that has it, `undefined` (here `none`) otherwise. -/
def Json.getField : Json → String → Option Json
  | .obj fields, key => fields.lookup key
  | _, _ => none

/-- JS truthiness of a parsed JSON value. -/
def jsTruthy : Json → Bool
  | .null => false
  | .bool b => b
  | .num n => n != 0
  | .str s => s != ""
  | .arr _ => true
  | .obj _ => true

/-- What reading and parsing the checkpoint file can yield. -/
inductive ReadOutcome where
  | noFile
  | readError (message : String)
  | parseError (message : String)
  | parsed (j : Json)

/-- The default progress state of `ProgressTracker.load`
(partition-extensions.js lines 37-42), with `Date.now()` as `t`. -/
def defaultProgress (t : Int) : Json :=
  .obj [("binsCreated", .bool false), ("processedFiles", .arr []),
        ("binSizesCalculated", .bool false), ("lastUpdate", .num t)]

/-- `ProgressTracker.load` (lines 26-43): a missing file, a read error or
a parse error is caught, logged and replaced by the default state; a
successfully parsed value is returned as-is. -/
def trackerLoad : ReadOutcome → Int → Json
  | .parsed j, _ => j
  | _, t => defaultProgress t

/-- The loader of drive-upload.js (lines 28-38):
`progressData.completedFiles || []`, with every failure caught and
yielding the empty list. -/
def driveLoadCompleted : ReadOutcome → Json
  | .parsed j =>
    match j.getField "completedFiles" with
    | some v => if jsTruthy v then v else .arr []
    | none => .arr []
  | _ => .arr []

/-! ## `updateProgressAtomic`: the event-loop mutex as a transition system

Callers of `updateProgressAtomic` (drive-upload.js lines 194-210) are
JavaScript async functions: control can change hands only at `await`
points, so each synchronous segment is one atomic step.  The segments of
one caller are: the spin-wait re-check followed (synchronously — there is
no `await` between the final check of `progress.mutex` and the assignment
`progress.mutex = true`) by the acquisition; the body of the update
function (`completedFiles.push` for a success, then the counter bump);
and the `finally` release.  Each caller `i` reports the relative path
`ids i`, with `succ i` telling whether it runs the success update
(lines 110-116) or the failure update (lines 129-131). -/

/-- Where one caller of `updateProgressAtomic` stands. -/
inductive Phase where
  | waiting
  | entered
  | pushed
  | counted
  | done
deriving DecidableEq, Repr

/-- The caller is between its acquisition and its release, i.e. its
update function is in progress. -/
def Phase.inCrit : Phase → Bool
  | .entered | .pushed | .counted => true
  | _ => false

/-- The caller has already run its `completedFiles` mutation. -/
def Phase.postBody : Phase → Bool
  | .pushed | .counted | .done => true
  | _ => false

/-- The caller has already run its counter bump. -/
def Phase.postCount : Phase → Bool
  | .counted | .done => true
  | _ => false

/-- The shared state seen by `k` concurrent callers: the `mutex` flag,
each caller's phase, and the shared `completedFiles` list and
`uploaded`/`failed` counters. -/
structure MState (k : Nat) where
  mutex : Bool
  pc : Fin k → Phase
  completedFiles : List String
  uploaded : Nat
  failed : Nat

/-- One atomic event-loop step of the mutex protocol. Acquisition is a
single step because the last spin-check and `progress.mutex = true` run
in one synchronous segment. -/
inductive MStep {k : Nat} (ids : Fin k → String) (succ : Fin k → Bool) :
    MState k → MState k → Prop where
  | acquire (s : MState k) (i : Fin k) :
      s.pc i = .waiting → s.mutex = false →
      MStep ids succ s
        { s with mutex := true, pc := Function.update s.pc i .entered }
  | updateBody (s : MState k) (i : Fin k) :
      s.pc i = .entered →
      MStep ids succ s
        { s with pc := Function.update s.pc i .pushed,
                 completedFiles :=
                   if succ i then pushUnique s.completedFiles (ids i)
                   else s.completedFiles }
  | updateCounter (s : MState k) (i : Fin k) :
      s.pc i = .pushed →
      MStep ids succ s
        { s with pc := Function.update s.pc i .counted,
                 uploaded := if succ i then s.uploaded + 1 else s.uploaded,
                 failed := if succ i then s.failed else s.failed + 1 }
  | release (s : MState k) (i : Fin k) :
      s.pc i = .counted →
      MStep ids succ s
        { s with mutex := false, pc := Function.update s.pc i .done }

/-- Reachability under any interleaving of caller steps. -/
inductive MReach {k : Nat} (ids : Fin k → String) (succ : Fin k → Bool) :
    MState k → MState k → Prop where
  | refl (s : MState k) : MReach ids succ s s
  | tail {s t u : MState k} :
      MReach ids succ s t → MStep ids succ t u → MReach ids succ s u

/-- The state before any caller has reported: mutex free, everyone
waiting, the loaded checkpoint as the completed list, counters zero. -/
def mInit (k : Nat) (c0 : List String) : MState k :=
  { mutex := false, pc := fun _ => .waiting, completedFiles := c0,
    uploaded := 0, failed := 0 }

/-! ## Derived notions used by the statements below -/

/-- The checkpoint never records a file the in-memory list does not
have. -/
def TrackOk (st : TrackState) : Prop :=
  st.savedFiles ⊆ st.processedFiles

/-- The aggregator state at the start of a run whose loaded checkpoint
is `c0`. -/
def initAgg (c0 : List String) : AggState :=
  { track := { processedFiles := c0, savedFiles := c0 }, processed := 0,
    errors := 0 }

/-- The rounds a run scheduled from checkpoint `c0` will execute. -/
def scheduledRounds (fsm : FS) (B W : Nat) (c0 : List String) :
    List (List (List String)) :=
  scheduleRounds B W
    (filesToProcess fsm { processedFiles := c0, savedFiles := c0 })

/-- The run state after the first `k` scheduling rounds have fully
completed. -/
def aggAfterRounds (fsm : FS) (B W : Nat) (c0 : List String) (k : Nat) :
    AggState :=
  execRounds (initAgg c0)
    (((scheduledRounds fsm B W c0).take k).map (normalRound fsm))

/-- The run state at an interruption point inside round `k`: after `k`
full rounds, the outcomes `outs` of the interrupted round have been
consumed in some arrival order, and no further save has happened. -/
def crashAgg (fsm : FS) (B W : Nat) (c0 : List String) (k : Nat)
    (outs : List Outcome) : AggState :=
  outs.foldl consumeOutcome (aggAfterRounds fsm B W c0 k)

/-- The items dispatched in scheduling round `k`. -/
def roundKFiles (fsm : FS) (B W : Nat) (c0 : List String) (k : Nat) :
    List String :=
  ((scheduledRounds fsm B W c0).getD k []).flatten

/-- The progress effect of one upload, ignoring the fulfilment flag. -/
def uploadStep (env : String → Bool) (pg : UProgress) (f : String) :
    UProgress :=
  (processAndUploadFile env pg f).1

/-- A concrete upload environment: every path succeeds except `f0`. -/
def failEnv (s : String) : Bool := s != "f0"

/-- Thirty-one relative paths `f0 .. f30`: one full batch of 30 plus a
second batch holding `f30`. -/
def uploadFiles : List String := (List.range 31).map (fun i => "f" ++ toString i)

/-- Mutual exclusion: at most one caller's update function is in
progress. -/
def mutualExclusion {k : Nat} (s : MState k) : Prop :=
  ∀ i j : Fin k, (s.pc i).inCrit = true → (s.pc j).inCrit = true → i = j

/-- The inductive invariant of the mutex protocol: mutual exclusion, the
flag mirrors occupancy of the critical section, the counters equal the
number of callers past their counter bump, and the completed list holds
the loaded checkpoint plus the ids of callers past their push. -/
def MInv {k : Nat} (ids : Fin k → String) (succ : Fin k → Bool)
    (c0 : List String) (s : MState k) : Prop :=
  mutualExclusion s
  ∧ (s.mutex = true ↔ ∃ i, (s.pc i).inCrit = true)
  ∧ s.uploaded = (Finset.univ.filter
      (fun i => succ i = true ∧ (s.pc i).postCount = true)).card
  ∧ s.failed = (Finset.univ.filter
      (fun i => succ i = false ∧ (s.pc i).postCount = true)).card
  ∧ (∀ x ∈ c0, x ∈ s.completedFiles)
  ∧ (∀ i : Fin k, succ i = true → (s.pc i).postBody = true →
      ids i ∈ s.completedFiles)

/-! ## Chunking lemmas -/

theorem chunksGo_flatten {α : Type} (fuel n : Nat) (l : List α)
    (hl : l.length ≤ fuel) (hn : n ≠ 0) : (chunksGo fuel n l).flatten = l := by
  induction fuel generalizing l with
  | zero =>
    cases l with
    | nil => rfl
    | cons x xs => simp at hl
  | succ fuel ih =>
    cases l with
    | nil => rfl
    | cons x xs =>
      have hd : ((x :: xs).drop n).length ≤ fuel := by
        simp only [List.length_drop, List.length_cons] at hl ⊢
        omega
      simp only [chunksGo, List.flatten_cons]
      rw [ih _ hd, List.take_append_drop]

theorem chunks_flatten {α : Type} (n : Nat) (l : List α) (hn : n ≠ 0) :
    (chunks n l).flatten = l := by
  simp only [chunks, if_neg hn]
  exact chunksGo_flatten l.length n l (Nat.le_refl _) hn

theorem chunksGo_mem_length {α : Type} (fuel n : Nat) (l : List α)
    (c : List α) (hc : c ∈ chunksGo fuel n l) : c.length ≤ n := by
  induction fuel generalizing l with
  | zero =>
    cases l with
    | nil => simp [chunksGo] at hc
    | cons x xs => simp [chunksGo] at hc
  | succ fuel ih =>
    cases l with
    | nil => simp [chunksGo] at hc
    | cons x xs =>
      simp only [chunksGo, List.mem_cons] at hc
      rcases hc with h | h
      · subst h
        simp only [List.length_take]
        exact Nat.min_le_left _ _
      · exact ih _ h

theorem chunks_mem_length {α : Type} (n : Nat) (l : List α) (c : List α)
    (hc : c ∈ chunks n l) : c.length ≤ n := by
  by_cases hn : n = 0
  · subst hn; simp [chunks] at hc
  · exact chunksGo_mem_length l.length n l c (by simpa [chunks, if_neg hn] using hc)

theorem chunks_mem_mem {α : Type} (n : Nat) (l c : List α) (x : α)
    (hc : c ∈ chunks n l) (hx : x ∈ c) : x ∈ l := by
  by_cases hn : n = 0
  · subst hn; simp [chunks] at hc
  · rw [← chunks_flatten n l hn]
    exact List.mem_flatten.mpr ⟨c, hc, hx⟩

theorem map_chunks_flatten {α : Type} (B : Nat) (hB : B ≠ 0)
    (cs : List (List α)) : ((cs.map (chunks B)).flatten).flatten = cs.flatten := by
  induction cs with
  | nil => rfl
  | cons c rest ih =>
    simp only [List.map_cons, List.flatten_cons, List.flatten_append,
      chunks_flatten B c hB, ih]

theorem scheduleRounds_flatten (B W : Nat) (hB : 0 < B) (hW : 0 < W)
    (l : List String) : ((scheduleRounds B W l).flatten).flatten = l := by
  unfold scheduleRounds
  rw [map_chunks_flatten B (Nat.pos_iff_ne_zero.mp hB)]
  exact chunks_flatten _ l (by positivity)

/-! ## Tracker lemmas -/

theorem mem_markFileProcessed (st : TrackState) (f x : String) :
    x ∈ (markFileProcessed st f).processedFiles ↔
      x ∈ st.processedFiles ∨ x = f := by
  unfold markFileProcessed
  by_cases h : f ∈ st.processedFiles
  · simp only [if_pos h]
    constructor
    · exact Or.inl
    · rintro (hx | rfl)
      · exact hx
      · exact h
  · simp [if_neg h]

theorem markFileProcessed_mono (st : TrackState) (f : String) :
    st.processedFiles ⊆ (markFileProcessed st f).processedFiles := by
  intro x hx
  exact (mem_markFileProcessed st f x).mpr (Or.inl hx)

theorem markFileProcessed_noop (st : TrackState) (f : String)
    (h : f ∈ st.processedFiles) : markFileProcessed st f = st := by
  simp [markFileProcessed, h]

theorem markFileProcessed_saved_mono (st : TrackState) (f : String)
    (h : TrackOk st) : st.savedFiles ⊆ (markFileProcessed st f).savedFiles := by
  by_cases hf : f ∈ st.processedFiles
  · rw [markFileProcessed_noop st f hf]
    exact List.Subset.refl _
  · unfold markFileProcessed
    rw [if_neg hf]
    dsimp only
    by_cases hl : (st.processedFiles ++ [f]).length % 100 = 0
    · rw [if_pos hl]
      intro x hx
      exact List.mem_append_left _ (h hx)
    · rw [if_neg hl]
      exact List.Subset.refl _

theorem markFileProcessed_ok (st : TrackState) (f : String) (h : TrackOk st) :
    TrackOk (markFileProcessed st f) := by
  by_cases hf : f ∈ st.processedFiles
  · rw [markFileProcessed_noop st f hf]; exact h
  · unfold TrackOk markFileProcessed
    rw [if_neg hf]
    dsimp only
    by_cases hl : (st.processedFiles ++ [f]).length % 100 = 0
    · rw [if_pos hl]
      exact List.Subset.refl _
    · rw [if_neg hl]
      intro x hx
      exact List.mem_append_left _ (h hx)

/-! ## Aggregator lemmas -/

theorem processFile_file (fsm : FS) (f : String) : (processFile fsm f).file = f := by
  unfold processFile
  dsimp only
  by_cases h1 : f ∈ fsm.sourceFiles
  · rw [if_pos h1]
    by_cases h2 : bin (basenameExt f ".json") ∈ fsm.binDirs
    · rw [if_pos h2]
    · rw [if_neg h2]
  · rw [if_neg h1]

theorem consumeOutcome_track (ag : AggState) (r : Outcome) :
    (consumeOutcome ag r).track =
      if r.success then markFileProcessed ag.track r.file else ag.track := by
  unfold consumeOutcome
  by_cases h : r.success
  · simp [h]
  · simp [h]

theorem consumeOutcome_fail (ag : AggState) (r : Outcome)
    (h : r.success = false) :
    consumeOutcome ag r = { ag with errors := ag.errors + 1 } := by
  simp [consumeOutcome, h]

theorem mem_consumeOutcome (ag : AggState) (r : Outcome) (x : String) :
    x ∈ (consumeOutcome ag r).track.processedFiles ↔
      x ∈ ag.track.processedFiles ∨ (r.success = true ∧ x = r.file) := by
  unfold consumeOutcome
  by_cases h : r.success
  · simp only [h, if_pos]
    rw [mem_markFileProcessed]
    simp [h]
  · simp only [Bool.not_eq_true] at h
    simp [h]

theorem consumeOutcome_mono (ag : AggState) (r : Outcome) :
    ag.track.processedFiles ⊆ (consumeOutcome ag r).track.processedFiles := by
  intro x hx
  exact (mem_consumeOutcome ag r x).mpr (Or.inl hx)

theorem consumeOutcome_saved_mono (ag : AggState) (r : Outcome)
    (h : TrackOk ag.track) :
    ag.track.savedFiles ⊆ (consumeOutcome ag r).track.savedFiles := by
  rw [consumeOutcome_track]
  by_cases hs : r.success
  · rw [if_pos hs]
    exact markFileProcessed_saved_mono _ _ h
  · rw [if_neg hs]
    exact List.Subset.refl _

theorem consumeOutcome_ok (ag : AggState) (r : Outcome) (h : TrackOk ag.track) :
    TrackOk (consumeOutcome ag r).track := by
  rw [consumeOutcome_track]
  by_cases hs : r.success
  · rw [if_pos hs]
    exact markFileProcessed_ok _ _ h
  · rwa [if_neg hs]

theorem mem_foldl_consume (rs : List Outcome) (ag : AggState) (x : String) :
    x ∈ (rs.foldl consumeOutcome ag).track.processedFiles ↔
      x ∈ ag.track.processedFiles ∨ ∃ r ∈ rs, r.success = true ∧ x = r.file := by
  induction rs generalizing ag with
  | nil => simp
  | cons r rest ih =>
    simp only [List.foldl_cons, ih, mem_consumeOutcome, List.mem_cons]
    constructor
    · rintro ((hx | hr) | ⟨r2, hr2, hs2, hx2⟩)
      · exact Or.inl hx
      · exact Or.inr ⟨r, Or.inl rfl, hr.1, hr.2⟩
      · exact Or.inr ⟨r2, Or.inr hr2, hs2, hx2⟩
    · rintro (hx | ⟨r2, (rfl | hr2), hs2, hx2⟩)
      · exact Or.inl (Or.inl hx)
      · exact Or.inl (Or.inr ⟨hs2, hx2⟩)
      · exact Or.inr ⟨r2, hr2, hs2, hx2⟩

theorem foldl_consume_mono (rs : List Outcome) (ag : AggState) :
    ag.track.processedFiles ⊆ (rs.foldl consumeOutcome ag).track.processedFiles := by
  intro x hx
  exact (mem_foldl_consume rs ag x).mpr (Or.inl hx)

theorem foldl_consume_ok (rs : List Outcome) (ag : AggState)
    (h : TrackOk ag.track) : TrackOk (rs.foldl consumeOutcome ag).track := by
  induction rs generalizing ag with
  | nil => exact h
  | cons r rest ih => exact ih _ (consumeOutcome_ok _ _ h)

theorem foldl_consume_saved_mono (rs : List Outcome) (ag : AggState)
    (h : TrackOk ag.track) :
    ag.track.savedFiles ⊆ (rs.foldl consumeOutcome ag).track.savedFiles := by
  induction rs generalizing ag with
  | nil => exact List.Subset.refl _
  | cons r rest ih =>
    intro x hx
    exact ih _ (consumeOutcome_ok _ _ h) (consumeOutcome_saved_mono _ _ h hx)

theorem foldl_consume_processed_count (rs : List Outcome) (ag : AggState) :
    (rs.foldl consumeOutcome ag).processed =
      ag.processed + (rs.filter (fun r => r.success)).length := by
  induction rs generalizing ag with
  | nil => simp
  | cons r rest ih =>
    simp only [List.foldl_cons, ih]
    by_cases h : r.success
    · simp [consumeOutcome, h, Nat.add_assoc, Nat.add_comm 1]
    · simp only [Bool.not_eq_true] at h
      simp [consumeOutcome, h]

theorem foldl_consume_allfail (rs : List Outcome) (ag : AggState)
    (h : ∀ r ∈ rs, r.success = false) :
    rs.foldl consumeOutcome ag = { ag with errors := ag.errors + rs.length } := by
  induction rs generalizing ag with
  | nil => simp
  | cons r rest ih =>
    simp only [List.foldl_cons]
    rw [consumeOutcome_fail ag r (h r (List.mem_cons_self r rest)),
        ih _ (fun r2 hr2 => h r2 (List.mem_cons_of_mem r hr2))]
    simp only [List.length_cons]
    congr 1
    omega

/-! ## Round and run lemmas -/

theorem roundFold_normal (fsm : FS) (batches : List (List String))
    (ag : AggState) (b : Bool) :
    (normalRound fsm batches).foldl workerFold (ag, b) =
      ((batches.flatten.map (processFile fsm)).foldl consumeOutcome ag, b) := by
  induction batches generalizing ag b with
  | nil => simp [normalRound]
  | cons c cs ih =>
    simp only [normalRound, List.map_cons, List.foldl_cons, workerFold,
      runWorker, Bool.or_false, List.flatten_cons, List.map_append,
      List.foldl_append]
    exact ih _ _

theorem roundStep_normal (fsm : FS) (batches : List (List String))
    (ag : AggState) :
    roundStep ag (normalRound fsm batches) =
      { (batches.flatten.map (processFile fsm)).foldl consumeOutcome ag with
        track := trackerSave
          ((batches.flatten.map (processFile fsm)).foldl consumeOutcome ag).track } := by
  unfold roundStep
  rw [roundFold_normal]
  rfl

theorem trackerSave_self (st : TrackState)
    (h : st.savedFiles = st.processedFiles) : trackerSave st = st := by
  cases st
  simp only [trackerSave]
  simp_all

theorem exec_normal_saved_eq (fsm : FS) (bls : List (List (List String)))
    (ag : AggState) (h : ag.track.savedFiles = ag.track.processedFiles) :
    (execRounds ag (bls.map (normalRound fsm))).track.savedFiles =
      (execRounds ag (bls.map (normalRound fsm))).track.processedFiles := by
  induction bls generalizing ag with
  | nil => exact h
  | cons c cs ih =>
    simp only [List.map_cons, execRounds, List.foldl_cons]
    exact ih _ (by rw [roundStep_normal]; rfl)

theorem mem_foldl_consume_map (fsm : FS) (l : List String) (ag : AggState)
    (x : String) :
    x ∈ ((l.map (processFile fsm)).foldl consumeOutcome ag).track.processedFiles ↔
      x ∈ ag.track.processedFiles ∨
        ∃ f ∈ l, (processFile fsm f).success = true ∧ x = f := by
  rw [mem_foldl_consume]
  constructor
  · rintro (hx | ⟨r, hr, hs, hxf⟩)
    · exact Or.inl hx
    · rcases List.mem_map.mp hr with ⟨f, hf, rfl⟩
      rw [processFile_file] at hxf
      exact Or.inr ⟨f, hf, hs, hxf⟩
  · rintro (hx | ⟨f, hf, hs, rfl⟩)
    · exact Or.inl hx
    · exact Or.inr ⟨processFile fsm x, List.mem_map_of_mem _ hf, hs,
        (processFile_file fsm x).symm⟩

theorem exec_normal_mem (fsm : FS) (bls : List (List (List String)))
    (ag : AggState) (x : String) :
    x ∈ (execRounds ag (bls.map (normalRound fsm))).track.processedFiles ↔
      x ∈ ag.track.processedFiles ∨
        ∃ f ∈ bls.flatten.flatten, (processFile fsm f).success = true ∧ x = f := by
  induction bls generalizing ag with
  | nil => simp [execRounds]
  | cons c cs ih =>
    simp only [List.map_cons, execRounds, List.foldl_cons] at ih ⊢
    rw [ih, roundStep_normal]
    simp only [trackerSave]
    rw [mem_foldl_consume_map]
    simp only [List.flatten_cons, List.flatten_append, List.mem_append]
    constructor
    · rintro ((hx | ⟨f, hf, hs, rfl⟩) | ⟨f, hf, hs, rfl⟩)
      · exact Or.inl hx
      · exact Or.inr ⟨x, Or.inl hf, hs, rfl⟩
      · exact Or.inr ⟨x, Or.inr hf, hs, rfl⟩
    · rintro (hx | ⟨f, hf | hf, hs, rfl⟩)
      · exact Or.inl (Or.inl hx)
      · exact Or.inl (Or.inr ⟨x, hf, hs, rfl⟩)
      · exact Or.inr ⟨x, hf, hs, rfl⟩

theorem length_filter_map {α β : Type} (g : α → β) (p : β → Bool) (l : List α) :
    ((l.map g).filter p).length = (l.filter (fun a => p (g a))).length := by
  induction l with
  | nil => rfl
  | cons a as ih =>
    simp only [List.map_cons, List.filter_cons]
    by_cases h : p (g a)
    · simp [h, ih]
    · simp only [Bool.not_eq_true] at h
      simp [h, ih]

theorem exec_normal_count (fsm : FS) (bls : List (List (List String)))
    (ag : AggState) :
    (execRounds ag (bls.map (normalRound fsm))).processed =
      ag.processed +
        ((bls.flatten.flatten).filter
          (fun f => (processFile fsm f).success)).length := by
  induction bls generalizing ag with
  | nil => simp [execRounds]
  | cons c cs ih =>
    simp only [List.map_cons, execRounds, List.foldl_cons] at ih ⊢
    rw [ih, roundStep_normal]
    simp only [foldl_consume_processed_count, List.flatten_cons,
      List.flatten_append, List.filter_append, List.length_append,
      length_filter_map]
    omega

theorem exec_normal_allfail (fsm : FS) (bls : List (List (List String)))
    (ag : AggState)
    (h : ∀ f ∈ bls.flatten.flatten, (processFile fsm f).success = false)
    (hsv : ag.track.savedFiles = ag.track.processedFiles) :
    execRounds ag (bls.map (normalRound fsm)) =
      { ag with errors := ag.errors + (bls.flatten.flatten).length } := by
  induction bls generalizing ag with
  | nil => simp [execRounds]
  | cons c cs ih =>
    simp only [List.map_cons, execRounds, List.foldl_cons] at ih ⊢
    have hall : ∀ r ∈ c.flatten.map (processFile fsm), r.success = false := by
      rintro r hr
      rcases List.mem_map.mp hr with ⟨f, hf, rfl⟩
      exact h f (by
        simp only [List.flatten_cons, List.flatten_append, List.mem_append]
        exact Or.inl hf)
    have h2 : ∀ f ∈ cs.flatten.flatten, (processFile fsm f).success = false := by
      intro f hf
      exact h f (by
        simp only [List.flatten_cons, List.flatten_append, List.mem_append]
        exact Or.inr hf)
    rw [roundStep_normal, foldl_consume_allfail _ _ hall]
    have hsave : trackerSave ag.track = ag.track := trackerSave_self _ hsv
    simp only [hsave]
    have hstep := ih { track := ag.track, processed := ag.processed, errors := ag.errors + (List.map (processFile fsm) c.flatten).length } h2 hsv
    refine hstep.trans ?_
    simp only [List.flatten_cons, List.flatten_append, List.length_append,
      List.length_map, AggState.mk.injEq, true_and]
    omega

theorem partitionExtensionFiles_empty (fsm : FS) (B W : Nat) (st : TrackState)
    (h : filesToProcess fsm st = []) :
    partitionExtensionFiles fsm B W st =
      { track := st, processed := 0, errors := 0 } := by
  simp [partitionExtensionFiles, h]

theorem partitionExtensionFiles_nonempty (fsm : FS) (B W : Nat)
    (st : TrackState) (h : filesToProcess fsm st ≠ []) :
    partitionExtensionFiles fsm B W st =
      { execRounds { track := st, processed := 0, errors := 0 }
          ((scheduleRounds B W (filesToProcess fsm st)).map (normalRound fsm)) with
        track := trackerSave (execRounds { track := st, processed := 0, errors := 0 }
          ((scheduleRounds B W (filesToProcess fsm st)).map (normalRound fsm))).track } := by
  have he : (filesToProcess fsm st).isEmpty = false := by
    simp [List.isEmpty_iff, h]
  simp [partitionExtensionFiles, he]

theorem runFrom_mem (fsm : FS) (B W : Nat) (c0 : List String) (x : String)
    (hB : 0 < B) (hW : 0 < W) :
    x ∈ (runFrom fsm B W c0).track.processedFiles ↔
      x ∈ c0 ∨ ∃ f ∈ filesToProcess fsm { processedFiles := c0, savedFiles := c0 },
        (processFile fsm f).success = true ∧ x = f := by
  unfold runFrom
  by_cases h : filesToProcess fsm { processedFiles := c0, savedFiles := c0 } = []
  · rw [partitionExtensionFiles_empty _ _ _ _ h]
    simp [h]
  · rw [partitionExtensionFiles_nonempty _ _ _ _ h]
    simp only [trackerSave]
    rw [exec_normal_mem]
    rw [scheduleRounds_flatten B W hB hW]

theorem runFrom_saved_eq (fsm : FS) (B W : Nat) (c0 : List String) :
    (runFrom fsm B W c0).track.savedFiles =
      (runFrom fsm B W c0).track.processedFiles := by
  unfold runFrom
  by_cases h : filesToProcess fsm { processedFiles := c0, savedFiles := c0 } = []
  · rw [partitionExtensionFiles_empty _ _ _ _ h]
  · rw [partitionExtensionFiles_nonempty _ _ _ _ h]
    simp [trackerSave]

theorem runFrom_count (fsm : FS) (B W : Nat) (c0 : List String)
    (hB : 0 < B) (hW : 0 < W) :
    (runFrom fsm B W c0).processed =
      ((filesToProcess fsm { processedFiles := c0, savedFiles := c0 }).filter
        (fun f => (processFile fsm f).success)).length := by
  unfold runFrom
  by_cases h : filesToProcess fsm { processedFiles := c0, savedFiles := c0 } = []
  · rw [partitionExtensionFiles_empty _ _ _ _ h]
    simp [h]
  · rw [partitionExtensionFiles_nonempty _ _ _ _ h]
    have := exec_normal_count fsm (scheduleRounds B W
      (filesToProcess fsm { processedFiles := c0, savedFiles := c0 }))
      { track := { processedFiles := c0, savedFiles := c0 }, processed := 0, errors := 0 }
    rw [scheduleRounds_flatten B W hB hW] at this
    simpa using this

theorem getD_mem_or {α : Type} (l : List α) (k : Nat) (d : α) :
    l.getD k d ∈ l ∨ l.getD k d = d := by
  induction l generalizing k with
  | nil => exact Or.inr rfl
  | cons a as ih =>
    cases k with
    | zero => exact Or.inl (List.mem_cons_self _ _)
    | succ k2 =>
      rcases ih k2 with h | h
      · exact Or.inl (List.mem_cons_of_mem _ h)
      · exact Or.inr h

theorem mem_scheduleRounds_le (B W : Nat) (todo : List String)
    (hB : 0 < B) (rb : List (List String))
    (hrb : rb ∈ scheduleRounds B W todo) : rb.flatten.length ≤ B * W := by
  unfold scheduleRounds at hrb
  rcases List.mem_map.mp hrb with ⟨c, hc, rfl⟩
  rw [chunks_flatten B c (Nat.pos_iff_ne_zero.mp hB)]
  exact chunks_mem_length _ _ _ hc

theorem scheduleRounds_getD_le (B W : Nat) (todo : List String)
    (hB : 0 < B) (k : Nat) :
    ((scheduleRounds B W todo).getD k []).flatten.length ≤ B * W := by
  rcases getD_mem_or (scheduleRounds B W todo) k [] with h | h
  · exact mem_scheduleRounds_le B W todo hB _ h
  · rw [h]
    exact Nat.zero_le _

/-! ## Monotonicity through arbitrary rounds -/

theorem runWorker_track_mono (ag : AggState) (batch : List String)
    (b : WorkerBehavior) :
    ag.track.processedFiles ⊆ (runWorker ag batch b).1.track.processedFiles := by
  cases b with
  | results rs => exact foldl_consume_mono rs ag
  | fatalMessage m => exact List.Subset.refl _
  | errorEvent m => exact List.Subset.refl _
  | abnormalExit c => exact List.Subset.refl _

theorem roundFold_track_mono (round : Round) (acc : AggState × Bool) :
    acc.1.track.processedFiles ⊆
      (round.foldl workerFold acc).1.track.processedFiles := by
  induction round generalizing acc with
  | nil => exact List.Subset.refl _
  | cons p rest ih =>
    intro x hx
    exact ih (workerFold acc p) (runWorker_track_mono acc.1 p.1 p.2 hx)

theorem roundStep_track_mono (ag : AggState) (round : Round) :
    ag.track.processedFiles ⊆ (roundStep ag round).track.processedFiles := by
  unfold roundStep
  by_cases h : (round.foldl workerFold (ag, false)).2
  · rw [if_pos h]
    exact roundFold_track_mono round (ag, false)
  · rw [if_neg h]
    exact roundFold_track_mono round (ag, false)

theorem execRounds_track_mono (rounds : List Round) (ag : AggState) :
    ag.track.processedFiles ⊆ (execRounds ag rounds).track.processedFiles := by
  induction rounds generalizing ag with
  | nil => exact List.Subset.refl _
  | cons r rest ih =>
    intro x hx
    exact ih (roundStep ag r) (roundStep_track_mono ag r hx)

theorem partitionExtensionFiles_track_mono (fsm : FS) (B W : Nat)
    (st : TrackState) :
    st.processedFiles ⊆ (partitionExtensionFiles fsm B W st).track.processedFiles := by
  by_cases h : filesToProcess fsm st = []
  · rw [partitionExtensionFiles_empty _ _ _ _ h]
    exact List.Subset.refl _
  · rw [partitionExtensionFiles_nonempty _ _ _ _ h]
    intro x hx
    exact execRounds_track_mono _ { track := st, processed := 0, errors := 0 } hx

/-! ## The bin function and the pre-created labels -/

theorem bin_eq_take (id : String) : bin id = (id.toList.take 2).asString := by
  unfold bin jsSubstring
  dsimp only
  rw [Nat.zero_min, Nat.zero_min, Nat.zero_max, Nat.sub_zero, List.drop_zero]
  have h2 : id.toList.take (min 2 id.length) = id.toList.take 2 := by
    have hlen : id.length = id.toList.length := rfl
    apply List.take_eq_take.mpr
    rw [← hlen, Nat.min_assoc, Nat.min_self]
  rw [h2]

theorem mem_binLabels (s : String) :
    s ∈ binLabels ↔
      ∃ c1, c1 ∈ binChars ∧ ∃ c2, c2 ∈ binChars ∧ ([c1, c2]).asString = s := by
  simp only [binLabels, List.mem_flatten, List.mem_map]
  constructor
  · rintro ⟨l, ⟨c1, hc1, rfl⟩, hs⟩
    rcases List.mem_map.mp hs with ⟨c2, hc2, rfl⟩
    exact ⟨c1, hc1, c2, hc2, rfl⟩
  · rintro ⟨c1, hc1, c2, hc2, rfl⟩
    exact ⟨binChars.map (fun c => ([c1, c]).asString), ⟨c1, hc1, rfl⟩,
      List.mem_map_of_mem _ hc2⟩

theorem binLabels_shape (s : String) (h : s ∈ binLabels) :
    s.toList.length = 2 ∧ ∀ c ∈ s.toList, c ∈ binChars := by
  rcases (mem_binLabels s).mp h with ⟨c1, hc1, c2, hc2, rfl⟩
  constructor
  · rfl
  · intro c hc
    have hmem : c ∈ [c1, c2] := hc
    simp only [List.mem_cons, List.not_mem_nil, or_false] at hmem
    rcases hmem with rfl | rfl
    · exact hc1
    · exact hc2

theorem bin_not_mem_binLabels (id : String)
    (h : id.length < 2 ∨ ∃ c ∈ id.toList.take 2, c ∉ binChars) :
    bin id ∉ binLabels := by
  intro hmem
  rw [bin_eq_take] at hmem
  have hsh := binLabels_shape _ hmem
  have htl : ((id.toList.take 2).asString).toList = id.toList.take 2 := rfl
  rw [htl] at hsh
  rcases h with hlen | ⟨c, hc, hnc⟩
  · have hlen2 : id.length = id.toList.length := rfl
    have := hsh.1
    rw [List.length_take] at this
    omega
  · exact hnc (hsh.2 c hc)

theorem processFile_fail_of_bad_bin (src : List String) (file : String)
    (h : bin (basenameExt file ".json") ∉ binLabels) :
    (processFile { sourceFiles := src, binDirs := binLabels } file).success = false := by
  unfold processFile
  dsimp only
  by_cases h1 : file ∈ src
  · rw [if_pos h1, if_neg h]
  · rw [if_neg h1]

theorem processFile_binLabel (fsm : FS) (f : String)
    (h : (processFile fsm f).success = true) :
    (processFile fsm f).binLabel = some (bin (basenameExt f ".json")) := by
  unfold processFile at h ⊢
  dsimp only at h ⊢
  by_cases h1 : f ∈ fsm.sourceFiles
  · rw [if_pos h1] at h ⊢
    by_cases h2 : bin (basenameExt f ".json") ∈ fsm.binDirs
    · rw [if_pos h2]
    · rw [if_neg h2] at h
      exact absurd h (by simp)
  · rw [if_neg h1] at h
    exact absurd h (by simp)

/-! ## Uploader lemmas -/

theorem pushUnique_mono (l : List String) (x : String) : l ⊆ pushUnique l x := by
  unfold pushUnique
  by_cases h : x ∈ l
  · rw [if_pos h]
    exact List.Subset.refl _
  · rw [if_neg h]
    intro y hy
    exact List.mem_append_left _ hy

theorem pushUnique_mem_self (l : List String) (x : String) :
    x ∈ pushUnique l x := by
  unfold pushUnique
  by_cases h : x ∈ l
  · rwa [if_pos h]
  · rw [if_neg h]
    exact List.mem_append_right _ (List.mem_singleton_self x)

theorem uploadFold_fst (env : String → Bool) (batch : List String)
    (pg : UProgress) (bb : Bool) :
    (batch.foldl
      (fun (acc : UProgress × Bool) f =>
        let st := processAndUploadFile env acc.1 f
        (st.1, acc.2 && st.2))
      (pg, bb)).1 = batch.foldl (uploadStep env) pg := by
  induction batch generalizing pg bb with
  | nil => rfl
  | cons f fs ih =>
    simp only [List.foldl_cons]
    exact ih _ _

theorem uploadStep_completed_mono (env : String → Bool) (pg : UProgress)
    (f : String) : pg.completedFiles ⊆ (uploadStep env pg f).completedFiles := by
  unfold uploadStep processAndUploadFile
  by_cases h : env f
  · rw [if_pos h]
    exact pushUnique_mono _ _
  · rw [if_neg h]
    exact List.Subset.refl _

theorem foldl_uploadStep_mono (env : String → Bool) (batch : List String)
    (pg : UProgress) :
    pg.completedFiles ⊆ (batch.foldl (uploadStep env) pg).completedFiles := by
  induction batch generalizing pg with
  | nil => exact List.Subset.refl _
  | cons f fs ih =>
    intro x hx
    exact ih (uploadStep env pg f) (uploadStep_completed_mono env pg f hx)

theorem mem_foldl_uploadStep (env : String → Bool) (batch : List String)
    (f : String) (he : env f = true) :
    ∀ pg : UProgress, f ∈ batch →
      f ∈ (batch.foldl (uploadStep env) pg).completedFiles := by
  induction batch with
  | nil =>
    intro pg hf
    cases hf
  | cons g fs ih =>
    intro pg hf
    rcases List.mem_cons.mp hf with rfl | hf2
    · refine foldl_uploadStep_mono env fs (uploadStep env pg f) ?_
      unfold uploadStep processAndUploadFile
      rw [if_pos he]
      exact pushUnique_mem_self _ _
    · exact ih (uploadStep env pg g) hf2

theorem mem_uploadBatch (env : String → Bool) (pg : UProgress)
    (batch : List String) (f : String) (hf : f ∈ batch) (he : env f = true) :
    f ∈ (uploadBatch env pg batch).1.completedFiles := by
  unfold uploadBatch
  rw [uploadFold_fst]
  exact mem_foldl_uploadStep env batch f he pg hf

theorem uploadLoop_abort (env : String → Bool) (st : UState)
    (b : List String) (rest : List (List String))
    (h : (uploadBatch env st.progress b).2 = false) :
    uploadLoop env st (b :: rest)
      = { progress := (uploadBatch env st.progress b).1,
          savedCheckpoint := st.savedCheckpoint } := by
  simp only [uploadLoop]
  rw [h]
  rfl

/-! ## Claims -/

/-- C2: the set of completed item identifiers is monotone — `markFileProcessed`
never removes entries and re-adding a present id is a no-op; consuming any
outcome, executing any round and executing a whole run (also when resumed
from a prior checkpoint) can only grow `processedFiles`. -/
theorem c2_completed_set_monotone :
    (∀ (st : TrackState) (f : String),
        st.processedFiles ⊆ (markFileProcessed st f).processedFiles)
  ∧ (∀ (st : TrackState) (f : String),
        f ∈ st.processedFiles → markFileProcessed st f = st)
  ∧ (∀ (ag : AggState) (r : Outcome),
        ag.track.processedFiles ⊆ (consumeOutcome ag r).track.processedFiles)
  ∧ (∀ (ag : AggState) (round : Round),
        ag.track.processedFiles ⊆ (roundStep ag round).track.processedFiles)
  ∧ (∀ (fsm : FS) (B W : Nat) (st : TrackState),
        st.processedFiles ⊆ (partitionExtensionFiles fsm B W st).track.processedFiles) :=
  ⟨markFileProcessed_mono,
   markFileProcessed_noop,
   consumeOutcome_mono,
   roundStep_track_mono,
   partitionExtensionFiles_track_mono⟩

/-- Witness for C2 at concrete inputs. -/
theorem c2_witness :
    ({ processedFiles := ["aa.json"], savedFiles := [] } : TrackState).processedFiles ⊆
      (markFileProcessed { processedFiles := ["aa.json"], savedFiles := [] } "bb.json").processedFiles
  ∧ markFileProcessed { processedFiles := ["aa.json"], savedFiles := [] } "aa.json"
      = { processedFiles := ["aa.json"], savedFiles := [] } :=
  ⟨c2_completed_set_monotone.1 { processedFiles := ["aa.json"], savedFiles := [] } "bb.json",
   c2_completed_set_monotone.2.1 { processedFiles := ["aa.json"], savedFiles := [] } "aa.json"
     (by decide)⟩

/-- C7: the partitioner is pure and deterministic — `bin` returns the
two-character prefix of the identifier, and every outcome a worker posts
is a function of the item's file name alone (hence independent of batch
arrangement, worker count and batch size), carrying exactly that bin. -/
theorem c7_bin_deterministic :
    (∀ id : String, bin id = (id.toList.take 2).asString)
  ∧ (∀ (fsm : FS) (batch : List String) (r : Outcome),
      r ∈ workerProcess fsm batch →
        r = processFile fsm r.file
        ∧ (r.success = true →
            r.binLabel = some (bin (basenameExt r.file ".json")))) := by
  refine ⟨bin_eq_take, ?_⟩
  intro fsm batch r hr
  unfold workerProcess at hr
  rcases List.mem_map.mp hr with ⟨f, hf, rfl⟩
  constructor
  · rw [processFile_file]
  · intro hs
    rw [processFile_file]
    exact processFile_binLabel fsm f hs

/-- Witness for C7 at concrete inputs. -/
theorem c7_witness :
    bin "abcdef" = ("abcdef".toList.take 2).asString
  ∧ (processFile { sourceFiles := ["aa1.json"], binDirs := binLabels } "aa1.json"
      = processFile { sourceFiles := ["aa1.json"], binDirs := binLabels }
          (processFile { sourceFiles := ["aa1.json"], binDirs := binLabels } "aa1.json").file
     ∧ ((processFile { sourceFiles := ["aa1.json"], binDirs := binLabels } "aa1.json").success = true →
        (processFile { sourceFiles := ["aa1.json"], binDirs := binLabels } "aa1.json").binLabel
          = some (bin (basenameExt
              (processFile { sourceFiles := ["aa1.json"], binDirs := binLabels } "aa1.json").file
              ".json")))) :=
  ⟨c7_bin_deterministic.1 "abcdef",
   c7_bin_deterministic.2 { sourceFiles := ["aa1.json"], binDirs := binLabels }
     ["aa1.json"] _ (List.mem_singleton_self _)⟩

/-- C10: an item whose derived id has a two-character prefix outside the
pre-created `a`–`p` alphabet, or an id shorter than two characters,
targets a bin directory that was never created: its copy fails, the
aggregator only bumps the error counter (the id is never added to the
completed set), and the worker still returns one outcome per batch item
(no crash). -/
theorem c10_out_of_alphabet_fails :
    ∀ (src : List String) (file : String),
      ((basenameExt file ".json").length < 2
        ∨ ∃ c ∈ (basenameExt file ".json").toList.take 2, c ∉ binChars) →
      (processFile { sourceFiles := src, binDirs := binLabels } file).success = false
      ∧ (∀ ag : AggState,
          consumeOutcome ag (processFile { sourceFiles := src, binDirs := binLabels } file)
            = { ag with errors := ag.errors + 1 })
      ∧ (∀ batch : List String,
          (workerProcess { sourceFiles := src, binDirs := binLabels } batch).length
            = batch.length) := by
  intro src file h
  have hb := bin_not_mem_binLabels _ h
  have hp := processFile_fail_of_bad_bin src file hb
  refine ⟨hp, fun ag => consumeOutcome_fail _ _ hp, fun batch => ?_⟩
  unfold workerProcess
  exact List.length_map _ _

/-- Witness for C10: the id `ZZ123` starts with characters outside
`a`–`p`. -/
theorem c10_witness :
    (processFile { sourceFiles := ["ZZ123.json"], binDirs := binLabels } "ZZ123.json").success = false
  ∧ consumeOutcome (initAgg []) (processFile { sourceFiles := ["ZZ123.json"], binDirs := binLabels } "ZZ123.json")
      = { initAgg [] with errors := (initAgg []).errors + 1 }
  ∧ (workerProcess { sourceFiles := ["ZZ123.json"], binDirs := binLabels } ["ZZ123.json"]).length = 1 := by
  have h := c10_out_of_alphabet_fails ["ZZ123.json"] "ZZ123.json" (by decide)
  exact ⟨h.1, h.2.1 (initAgg []), h.2.2 ["ZZ123.json"]⟩

/-- C4: a failed outcome bumps only the failure counter and its id is not
added to the completed set, so the next run's candidate-minus-completed
diff picks it up again; within one run the scheduler dispatches the diff
exactly once, so there is no in-run retry loop. -/
theorem c4_failed_outcome_is_retried :
    (∀ (ag : AggState) (r : Outcome), r.success = false →
        consumeOutcome ag r = { ag with errors := ag.errors + 1 })
  ∧ (∀ (fsm : FS) (B W : Nat) (c0 : List String) (f : String),
      0 < B → 0 < W →
      f ∈ jsonCandidates fsm → (processFile fsm f).success = false → f ∉ c0 →
        f ∉ (runFrom fsm B W c0).track.processedFiles
        ∧ f ∈ filesToProcess fsm (runFrom fsm B W c0).track
        ∧ ((scheduleRounds B W
            (filesToProcess fsm { processedFiles := c0, savedFiles := c0 })).flatten.flatten
              = filesToProcess fsm { processedFiles := c0, savedFiles := c0 })) := by
  constructor
  · exact consumeOutcome_fail
  · intro fsm B W c0 f hB hW hcand hfail hc0
    have hnot : f ∉ (runFrom fsm B W c0).track.processedFiles := by
      intro hmem
      rcases (runFrom_mem fsm B W c0 f hB hW).mp hmem with hc | ⟨f2, hf2, hs2, rfl⟩
      · exact hc0 hc
      · rw [hfail] at hs2
        cases hs2
    refine ⟨hnot, ?_, scheduleRounds_flatten B W hB hW _⟩
    unfold filesToProcess
    rw [List.mem_filter]
    refine ⟨hcand, ?_⟩
    simp only [isFileProcessed, decide_eq_true_eq]
    intro hcon
    exact hnot (List.elem_iff.mp hcon)

/-- Witness for C4: one candidate whose bin directory list is empty, so
its copy fails; with batch size and worker count 1 it is left out of the
completed set and shows up in the next run's diff. -/
theorem c4_witness :
    (consumeOutcome (initAgg [])
        { file := "aa1.json", success := false, binLabel := none, error := some "x" }
      = { initAgg [] with errors := (initAgg []).errors + 1 })
  ∧ ("aa1.json" ∉ (runFrom { sourceFiles := ["aa1.json"], binDirs := [] } 1 1 []).track.processedFiles
     ∧ "aa1.json" ∈ filesToProcess { sourceFiles := ["aa1.json"], binDirs := [] }
         (runFrom { sourceFiles := ["aa1.json"], binDirs := [] } 1 1 []).track
     ∧ ((scheduleRounds 1 1
          (filesToProcess { sourceFiles := ["aa1.json"], binDirs := [] }
            { processedFiles := [], savedFiles := [] })).flatten.flatten
            = filesToProcess { sourceFiles := ["aa1.json"], binDirs := [] }
                { processedFiles := [], savedFiles := [] })) :=
  ⟨c4_failed_outcome_is_retried.1 (initAgg [])
      { file := "aa1.json", success := false, binLabel := none, error := some "x" } rfl,
   c4_failed_outcome_is_retried.2 { sourceFiles := ["aa1.json"], binDirs := [] } 1 1 []
     "aa1.json" (by decide) (by decide) (by decide) (by decide) (by decide)⟩

/-- C6: running the engine twice on an unchanged input yields the same
final completed list as running it once, the second run performs zero
successful-outcome work, and when the diff leaves nothing to process the
run returns its input state untouched with no scheduled round at all. -/
theorem c6_idempotent_resume :
    ∀ (fsm : FS) (B W : Nat) (c0 : List String), 0 < B → 0 < W →
      (runFrom fsm B W (runFrom fsm B W c0).track.savedFiles).track.processedFiles
        = (runFrom fsm B W c0).track.processedFiles
      ∧ (runFrom fsm B W (runFrom fsm B W c0).track.savedFiles).processed = 0
      ∧ (∀ c1 : List String,
          filesToProcess fsm { processedFiles := c1, savedFiles := c1 } = [] →
            partitionExtensionFiles fsm B W { processedFiles := c1, savedFiles := c1 }
              = { track := { processedFiles := c1, savedFiles := c1 },
                  processed := 0, errors := 0 }
            ∧ scheduleRounds B W ([] : List String) = []) := by
  intro fsm B W c0 hB hW
  set S1 := (runFrom fsm B W c0).track.savedFiles with hS1def
  have hsv := runFrom_saved_eq fsm B W c0
  have hc0sub : c0 ⊆ (runFrom fsm B W c0).track.processedFiles := by
    intro x hx
    exact (runFrom_mem fsm B W c0 x hB hW).mpr (Or.inl hx)
  have key : ∀ f ∈ filesToProcess fsm
      { processedFiles := S1, savedFiles := S1 },
      (processFile fsm f).success = false := by
    intro f hf
    unfold filesToProcess at hf
    rw [List.mem_filter] at hf
    rcases hf with ⟨hcand, hnp⟩
    simp only [isFileProcessed, decide_eq_true_eq] at hnp
    have hfnot : f ∉ (runFrom fsm B W c0).track.processedFiles := by
      intro hmem
      rw [← hsv] at hmem
      exact hnp (List.elem_iff.mpr hmem)
    by_cases hs : (processFile fsm f).success
    · exfalso
      apply hfnot
      refine (runFrom_mem fsm B W c0 f hB hW).mpr (Or.inr ⟨f, ?_, hs, rfl⟩)
      unfold filesToProcess
      rw [List.mem_filter]
      refine ⟨hcand, ?_⟩
      simp only [isFileProcessed, decide_eq_true_eq]
      intro hcon
      exact hfnot (hc0sub (List.elem_iff.mp hcon))
    · simpa using hs
  refine ⟨?_, ?_, ?_⟩
  · by_cases h2 : filesToProcess fsm
        { processedFiles := S1, savedFiles := S1 } = []
    · unfold runFrom
      rw [partitionExtensionFiles_empty _ _ _ _ h2]
      exact hsv
    · unfold runFrom
      rw [partitionExtensionFiles_nonempty _ _ _ _ h2]
      have hall : ∀ f ∈ (scheduleRounds B W (filesToProcess fsm
          { processedFiles := S1, savedFiles := S1 })).flatten.flatten,
          (processFile fsm f).success = false := by
        rw [scheduleRounds_flatten B W hB hW]
        exact key
      rw [exec_normal_allfail fsm _ _ hall rfl]
      exact hsv
  · rw [runFrom_count fsm B W _ hB hW]
    rw [List.length_eq_zero]
    rw [List.filter_eq_nil_iff]
    intro f hf
    rw [key f hf]
    simp
  · intro c1 h1
    refine ⟨partitionExtensionFiles_empty fsm B W _ h1, ?_⟩
    unfold scheduleRounds chunks
    by_cases hn : B * W = 0
    · rw [if_pos hn]
      rfl
    · rw [if_neg hn]
      rfl

/-- Witness for C6 at a concrete one-file run. -/
theorem c6_witness :
    (runFrom { sourceFiles := ["aa1.json"], binDirs := binLabels } 1 1
        (runFrom { sourceFiles := ["aa1.json"], binDirs := binLabels } 1 1 []).track.savedFiles).track.processedFiles
      = (runFrom { sourceFiles := ["aa1.json"], binDirs := binLabels } 1 1 []).track.processedFiles
  ∧ (runFrom { sourceFiles := ["aa1.json"], binDirs := binLabels } 1 1
      (runFrom { sourceFiles := ["aa1.json"], binDirs := binLabels } 1 1 []).track.savedFiles).processed = 0 :=
  ⟨(c6_idempotent_resume { sourceFiles := ["aa1.json"], binDirs := binLabels } 1 1 []
      (by decide) (by decide)).1,
   (c6_idempotent_resume { sourceFiles := ["aa1.json"], binDirs := binLabels } 1 1 []
      (by decide) (by decide)).2.1⟩

/-- C3: after every fully completed scheduling round the checkpoint file
holds the full completed list; at an interruption anywhere inside the
next round, every completion of the finished rounds (and of the loaded
checkpoint) is still persisted, every unpersisted completion belongs to
the interrupted round, and that round holds at most `B·W` items. -/
theorem c3_bounded_loss :
    ∀ (fsm : FS) (B W : Nat) (c0 : List String) (k : Nat) (outs : List Outcome),
      0 < B → 0 < W →
      (∀ r ∈ outs, r.file ∈ roundKFiles fsm B W c0 k) →
        (aggAfterRounds fsm B W c0 k).track.savedFiles
            = (aggAfterRounds fsm B W c0 k).track.processedFiles
        ∧ (aggAfterRounds fsm B W c0 k).track.processedFiles
            ⊆ (crashAgg fsm B W c0 k outs).track.savedFiles
        ∧ (∀ x ∈ (crashAgg fsm B W c0 k outs).track.processedFiles,
            x ∈ (crashAgg fsm B W c0 k outs).track.savedFiles
            ∨ x ∈ roundKFiles fsm B W c0 k)
        ∧ (roundKFiles fsm B W c0 k).length ≤ B * W := by
  intro fsm B W c0 k outs hB hW houts
  have ha : (aggAfterRounds fsm B W c0 k).track.savedFiles
      = (aggAfterRounds fsm B W c0 k).track.processedFiles := by
    unfold aggAfterRounds
    exact exec_normal_saved_eq fsm _ (initAgg c0) rfl
  have hok : TrackOk (aggAfterRounds fsm B W c0 k).track := by
    unfold TrackOk
    rw [ha]
    exact List.Subset.refl _
  have hb : (aggAfterRounds fsm B W c0 k).track.processedFiles
      ⊆ (crashAgg fsm B W c0 k outs).track.savedFiles := by
    intro x hx
    rw [← ha] at hx
    exact foldl_consume_saved_mono outs _ hok hx
  refine ⟨ha, hb, ?_, ?_⟩
  · intro x hx
    rcases (mem_foldl_consume outs _ x).mp hx with hx2 | ⟨r, hr, hs, rfl⟩
    · exact Or.inl (hb hx2)
    · exact Or.inr (houts r hr)
  · unfold roundKFiles scheduledRounds
    exact scheduleRounds_getD_le B W _ hB k

/-- Witness for C3 at a concrete run and crash point. -/
theorem c3_witness :
    (aggAfterRounds { sourceFiles := ["aa1.json"], binDirs := binLabels } 1 1 [] 0).track.savedFiles
      = (aggAfterRounds { sourceFiles := ["aa1.json"], binDirs := binLabels } 1 1 [] 0).track.processedFiles
  ∧ (aggAfterRounds { sourceFiles := ["aa1.json"], binDirs := binLabels } 1 1 [] 0).track.processedFiles
      ⊆ (crashAgg { sourceFiles := ["aa1.json"], binDirs := binLabels } 1 1 [] 0 []).track.savedFiles
  ∧ (roundKFiles { sourceFiles := ["aa1.json"], binDirs := binLabels } 1 1 [] 0).length ≤ 1 * 1 := by
  have h := c3_bounded_loss { sourceFiles := ["aa1.json"], binDirs := binLabels } 1 1 [] 0 []
    (by decide) (by decide) (fun r hr => absurd hr (List.not_mem_nil r))
  exact ⟨h.1, h.2.1, h.2.2.2⟩

/-- C8 counterexample: a worker that exits abnormally with a non-zero
code (without an `error` event) rejects its round, but the `exit` handler
increments no counter — after the round, `errors` is still 0 although the
batch held two items, refuting "all items of that worker's batch are
counted as failed". -/
theorem c8_counterexample :
    (roundStep (initAgg [])
        [(["aa.json", "ab.json"], WorkerBehavior.abnormalExit 1)]).errors = 0
  ∧ (["aa.json", "ab.json"] : List String).length = 2 :=
  ⟨rfl, rfl⟩

/-- C8 (amended): on a worker `error` event, and on an in-worker fatal
that is posted back as an error object, all items of the worker's batch
are counted as failed and the run proceeds; a round containing any
rejection skips its end-of-round save but the loop still continues with
the subsequent rounds; an abnormal exit without an `error` event,
however, rejects the round without incrementing the failure counter at
all. -/
theorem c8_worker_fatal_amended :
    (∀ (ag : AggState) (batch : List String) (m : String),
        runWorker ag batch (WorkerBehavior.errorEvent m)
          = ({ ag with errors := ag.errors + batch.length }, true))
  ∧ (∀ (ag : AggState) (batch : List String) (m : String),
        runWorker ag batch (WorkerBehavior.fatalMessage m)
          = ({ ag with errors := ag.errors + batch.length }, false))
  ∧ (∀ (ag : AggState) (batch : List String) (c : Nat),
        runWorker ag batch (WorkerBehavior.abnormalExit c) = (ag, true))
  ∧ (∀ (ag : AggState) (batch : List String) (m : String),
        roundStep ag [(batch, WorkerBehavior.errorEvent m)]
          = { ag with errors := ag.errors + batch.length })
  ∧ (∀ (ag : AggState) (batch : List String) (c : Nat),
        roundStep ag [(batch, WorkerBehavior.abnormalExit c)] = ag)
  ∧ (∀ (ag : AggState) (round : Round) (rest : List Round),
        execRounds ag (round :: rest) = execRounds (roundStep ag round) rest) :=
  ⟨fun ag batch m => rfl, fun ag batch m => rfl, fun ag batch c => rfl,
   fun ag batch m => rfl, fun ag batch c => rfl, fun ag round rest => rfl⟩

/-- C9 counterexample: a checkpoint that parses successfully but lacks
`processedFiles` (here the object `\x7b\x7d`) is returned verbatim by
`ProgressTracker.load` — its completed set is absent (`undefined`), not
the empty set the default record carries. -/
theorem c9_counterexample :
    trackerLoad (ReadOutcome.parsed (Json.obj [])) 0 = Json.obj []
  ∧ (trackerLoad (ReadOutcome.parsed (Json.obj [])) 0).getField "processedFiles" = none
  ∧ (defaultProgress 0).getField "processedFiles" = some (Json.arr []) :=
  ⟨rfl, rfl, rfl⟩

/-- C9 (amended): a missing, unreadable or unparseable checkpoint is
replaced by the default record, whose completed set is the empty array,
and loading never aborts; unknown extra fields are ignored by the
readers; but a successfully parsed checkpoint is returned as-is, so the
partitioner's loader does not default missing optional fields — only the
uploader's loader defaults `completedFiles` to the empty array. -/
theorem c9_load_fails_soft_amended :
    (∀ (m : String) (t : Int),
        trackerLoad ReadOutcome.noFile t = defaultProgress t
        ∧ trackerLoad (ReadOutcome.readError m) t = defaultProgress t
        ∧ trackerLoad (ReadOutcome.parseError m) t = defaultProgress t)
  ∧ (∀ t : Int, (defaultProgress t).getField "processedFiles" = some (Json.arr []))
  ∧ (∀ (j : Json) (t : Int), trackerLoad (ReadOutcome.parsed j) t = j)
  ∧ (∀ (u v : Json) (rest : List (String × Json)),
        (Json.obj (("someNewField", u) :: ("processedFiles", v) :: rest)).getField
          "processedFiles" = some v)
  ∧ driveLoadCompleted (ReadOutcome.parsed (Json.obj [])) = Json.arr []
  ∧ driveLoadCompleted ReadOutcome.noFile = Json.arr []
  ∧ (∀ m : String, driveLoadCompleted (ReadOutcome.readError m) = Json.arr []) :=
  ⟨fun m t => ⟨rfl, rfl, rfl⟩, fun t => rfl, fun j t => rfl,
   fun u v rest => rfl, rfl, rfl, fun m => rfl⟩

/-- C5 counterexample: in drive-upload.js a failed item rethrows, the
batch's `Promise.all` rejects, and the catch sits outside the batch loop:
with 31 files where only `f0` fails, `f30` sits in the second batch,
would upload successfully, yet is never recorded — a later batch IS
aborted by one item's failure. -/
theorem c5_counterexample :
    "f30" ∈ uploadFiles
  ∧ failEnv "f30" = true
  ∧ "f30" ∉ (uploadDirectoryWithTransferManager failEnv uploadFiles []).progress.completedFiles
  ∧ "f1" ∈ (uploadDirectoryWithTransferManager failEnv uploadFiles []).progress.completedFiles := by
  refine ⟨by decide, rfl, by decide, by decide⟩

/-- C5 (amended): in the partitioner, one item's failure is isolated at
item granularity — every successfully processed candidate of the run is
recorded as completed no matter which other items fail, in its batch or
any other round. In the drive uploader the items of the failing batch
itself are all still processed and the successful ones recorded in
memory, but the rethrown failure escapes the batch loop: the remaining
batches are skipped and the failing batch's save does not happen. -/
theorem c5_partial_failure_isolation :
    (∀ (fsm : FS) (B W : Nat) (c0 : List String) (f : String),
        0 < B → 0 < W →
        f ∈ filesToProcess fsm { processedFiles := c0, savedFiles := c0 } →
        (processFile fsm f).success = true →
          f ∈ (runFrom fsm B W c0).track.processedFiles)
  ∧ (∀ (env : String → Bool) (pg : UProgress) (batch : List String) (f : String),
        f ∈ batch → env f = true →
          f ∈ (uploadBatch env pg batch).1.completedFiles)
  ∧ (∀ (env : String → Bool) (st : UState) (b : List String)
        (rest : List (List String)),
        (uploadBatch env st.progress b).2 = false →
          uploadLoop env st (b :: rest)
            = { progress := (uploadBatch env st.progress b).1,
                savedCheckpoint := st.savedCheckpoint }) := by
  refine ⟨?_, ?_, ?_⟩
  · intro fsm B W c0 f hB hW hf hs
    exact (runFrom_mem fsm B W c0 f hB hW).mpr (Or.inr ⟨f, hf, hs, rfl⟩)
  · intro env pg batch f hf he
    exact mem_uploadBatch env pg batch f hf he
  · intro env st b rest h
    exact uploadLoop_abort env st b rest h

/-- Witness for C5 at concrete inputs: a successful item lands in the
completed set although its batchmate fails, and a failing batch ends the
loop with the checkpoint untouched. -/
theorem c5_witness :
    "aa1.json" ∈ (runFrom { sourceFiles := ["aa1.json", "qq.json"], binDirs := binLabels } 1 1 []).track.processedFiles
  ∧ "f1" ∈ (uploadBatch failEnv { uploaded := 0, failed := 0, total := 2, completedFiles := [] } ["f0", "f1"]).1.completedFiles
  ∧ uploadLoop failEnv { progress := { uploaded := 0, failed := 0, total := 2, completedFiles := [] }, savedCheckpoint := [] } [["f0", "f1"]]
      = { progress := (uploadBatch failEnv { uploaded := 0, failed := 0, total := 2, completedFiles := [] } ["f0", "f1"]).1,
          savedCheckpoint := [] } := by
  refine ⟨?_, ?_, ?_⟩
  · exact c5_partial_failure_isolation.1 { sourceFiles := ["aa1.json", "qq.json"], binDirs := binLabels }
      1 1 [] "aa1.json" (by decide) (by decide) (by decide) (by decide)
  · exact c5_partial_failure_isolation.2.1 failEnv
      { uploaded := 0, failed := 0, total := 2, completedFiles := [] } ["f0", "f1"] "f1"
      (by decide) rfl
  · exact c5_partial_failure_isolation.2.2 failEnv
      { progress := { uploaded := 0, failed := 0, total := 2, completedFiles := [] }, savedCheckpoint := [] }
      ["f0", "f1"] [] (by decide)

/-! ## The mutex protocol: invariant preservation -/

theorem filter_update_congr_phase {k : Nat} (succ : Fin k → Bool) (w : Bool)
    (pc : Fin k → Phase) (i : Fin k) (v : Phase)
    (h : (v.postCount = true) ↔ ((pc i).postCount = true)) :
    Finset.univ.filter
        (fun j => succ j = w ∧ ((Function.update pc i v) j).postCount = true)
      = Finset.univ.filter (fun j => succ j = w ∧ (pc j).postCount = true) := by
  apply Finset.filter_congr
  intro j _
  by_cases hj : j = i
  · subst hj
    rw [Function.update_same]
    constructor
    · rintro ⟨h1, h2⟩
      exact ⟨h1, h.mp h2⟩
    · rintro ⟨h1, h2⟩
      exact ⟨h1, h.mpr h2⟩
  · rw [Function.update_noteq hj]

theorem filter_update_insert_phase {k : Nat} (succ : Fin k → Bool) (w : Bool)
    (pc : Fin k → Phase) (i : Fin k) (v : Phase)
    (hsucc : succ i = w) (hv : v.postCount = true) :
    Finset.univ.filter
        (fun j => succ j = w ∧ ((Function.update pc i v) j).postCount = true)
      = insert i (Finset.univ.filter (fun j => succ j = w ∧ (pc j).postCount = true)) := by
  ext j
  simp only [Finset.mem_filter, Finset.mem_insert, Finset.mem_univ, true_and]
  by_cases hj : j = i
  · subst hj
    rw [Function.update_same]
    simp [hsucc, hv]
  · rw [Function.update_noteq hj]
    simp [hj]

theorem filter_update_congr_succ_ne {k : Nat} (succ : Fin k → Bool) (w : Bool)
    (pc : Fin k → Phase) (i : Fin k) (v : Phase) (hsucc : succ i ≠ w) :
    Finset.univ.filter
        (fun j => succ j = w ∧ ((Function.update pc i v) j).postCount = true)
      = Finset.univ.filter (fun j => succ j = w ∧ (pc j).postCount = true) := by
  apply Finset.filter_congr
  intro j _
  by_cases hj : j = i
  · subst hj
    rw [Function.update_same]
    constructor
    · rintro ⟨h1, _⟩
      exact absurd h1 hsucc
    · rintro ⟨h1, _⟩
      exact absurd h1 hsucc
  · rw [Function.update_noteq hj]

theorem not_mem_postCount_filter {k : Nat} (succ : Fin k → Bool) (w : Bool)
    (pc : Fin k → Phase) (i : Fin k) (hold : (pc i).postCount = false) :
    i ∉ Finset.univ.filter (fun j => succ j = w ∧ (pc j).postCount = true) := by
  simp [Finset.mem_filter, hold]

theorem MInv_init {k : Nat} (ids : Fin k → String) (succ : Fin k → Bool)
    (c0 : List String) : MInv ids succ c0 (mInit k c0) := by
  refine ⟨?_, ?_, ?_, ?_, ?_, ?_⟩
  · intro i j hi _
    simp [mInit, Phase.inCrit] at hi
  · constructor
    · intro h
      simp [mInit] at h
    · rintro ⟨i, hi⟩
      simp [mInit, Phase.inCrit] at hi
  · simp [mInit, Phase.postCount]
  · simp [mInit, Phase.postCount]
  · intro x hx
    exact hx
  · intro i _ hb
    simp [mInit, Phase.postBody] at hb

theorem MInv_step {k : Nat} (ids : Fin k → String) (succ : Fin k → Bool)
    (c0 : List String) (s t : MState k) (hinv : MInv ids succ c0 s)
    (hstep : MStep ids succ s t) : MInv ids succ c0 t := by
  obtain ⟨hme, hmx, hup, hfl, hc0, hbody⟩ := hinv
  cases hstep with
  | acquire i hw hm =>
    have hnone : ∀ j, (s.pc j).inCrit = false := by
      intro j
      cases hcase : (s.pc j).inCrit
      · rfl
      · rw [hm] at hmx
        exact absurd (hmx.mpr ⟨j, hcase⟩) (by simp)
    have key : ∀ a, ((Function.update s.pc i Phase.entered) a).inCrit = true → a = i := by
      intro a ha2
      by_cases hj : a = i
      · exact hj
      · rw [Function.update_noteq hj, hnone a] at ha2
        cases ha2
    refine ⟨?_, ?_, ?_, ?_, hc0, ?_⟩
    · intro a b ha hb
      dsimp only at ha hb
      rw [key a ha, key b hb]
    · dsimp only
      constructor
      · intro _
        exact ⟨i, by rw [Function.update_same]; rfl⟩
      · intro _
        rfl
    · dsimp only
      rw [filter_update_congr_phase succ true s.pc i Phase.entered
        (by rw [hw]; exact Iff.rfl)]
      exact hup
    · dsimp only
      rw [filter_update_congr_phase succ false s.pc i Phase.entered
        (by rw [hw]; exact Iff.rfl)]
      exact hfl
    · intro j hsj hb2
      dsimp only at hb2 ⊢
      by_cases hj : j = i
      · subst hj
        rw [Function.update_same] at hb2
        simp [Phase.postBody] at hb2
      · rw [Function.update_noteq hj] at hb2
        exact hbody j hsj hb2
  | updateBody i he =>
    have hpt : ∀ j, ((Function.update s.pc i Phase.pushed) j).inCrit = (s.pc j).inCrit := by
      intro j
      by_cases hj : j = i
      · subst hj
        rw [Function.update_same, he]
        rfl
      · rw [Function.update_noteq hj]
    refine ⟨?_, ?_, ?_, ?_, ?_, ?_⟩
    · intro a b ha hb
      dsimp only at ha hb
      rw [hpt a] at ha
      rw [hpt b] at hb
      exact hme a b ha hb
    · dsimp only
      rw [hmx]
      exact exists_congr fun j => by rw [hpt j]
    · dsimp only
      rw [filter_update_congr_phase succ true s.pc i Phase.pushed
        (by rw [he]; exact Iff.rfl)]
      exact hup
    · dsimp only
      rw [filter_update_congr_phase succ false s.pc i Phase.pushed
        (by rw [he]; exact Iff.rfl)]
      exact hfl
    · intro x hx
      dsimp only
      by_cases hs2 : succ i
      · simp only [if_pos hs2]
        exact pushUnique_mono _ _ (hc0 x hx)
      · simp only [if_neg hs2]
        exact hc0 x hx
    · intro j hsj hb2
      dsimp only at hb2 ⊢
      by_cases hj : j = i
      · subst hj
        simp only [if_pos hsj]
        exact pushUnique_mem_self _ _
      · rw [Function.update_noteq hj] at hb2
        have hmem := hbody j hsj hb2
        by_cases hs2 : succ i
        · simp only [if_pos hs2]
          exact pushUnique_mono _ _ hmem
        · simp only [if_neg hs2]
          exact hmem
  | updateCounter i hp =>
    have hpt : ∀ j, ((Function.update s.pc i Phase.counted) j).inCrit = (s.pc j).inCrit := by
      intro j
      by_cases hj : j = i
      · subst hj
        rw [Function.update_same, hp]
        rfl
      · rw [Function.update_noteq hj]
    have hptB : ∀ j, ((Function.update s.pc i Phase.counted) j).postBody = (s.pc j).postBody := by
      intro j
      by_cases hj : j = i
      · subst hj
        rw [Function.update_same, hp]
        rfl
      · rw [Function.update_noteq hj]
    have holdPC : (s.pc i).postCount = false := by
      rw [hp]
      rfl
    refine ⟨?_, ?_, ?_, ?_, hc0, ?_⟩
    · intro a b ha hb
      dsimp only at ha hb
      rw [hpt a] at ha
      rw [hpt b] at hb
      exact hme a b ha hb
    · dsimp only
      rw [hmx]
      exact exists_congr fun j => by rw [hpt j]
    · dsimp only
      by_cases hs2 : succ i
      · simp only [if_pos hs2]
        rw [filter_update_insert_phase succ true s.pc i Phase.counted hs2 rfl,
          Finset.card_insert_of_not_mem (not_mem_postCount_filter succ true s.pc i holdPC),
          hup]
      · simp only [if_neg hs2]
        rw [filter_update_congr_succ_ne succ true s.pc i Phase.counted
          (by simpa using hs2)]
        exact hup
    · dsimp only
      by_cases hs2 : succ i
      · simp only [if_pos hs2]
        rw [filter_update_congr_succ_ne succ false s.pc i Phase.counted
          (by simp [hs2])]
        exact hfl
      · simp only [if_neg hs2]
        have hs3 : succ i = false := by simpa using hs2
        rw [filter_update_insert_phase succ false s.pc i Phase.counted hs3 rfl,
          Finset.card_insert_of_not_mem (not_mem_postCount_filter succ false s.pc i holdPC),
          hfl]
    · intro j hsj hb2
      dsimp only at hb2 ⊢
      rw [hptB j] at hb2
      exact hbody j hsj hb2
  | release i hc =>
    have hiC : (s.pc i).inCrit = true := by
      rw [hc]
      rfl
    have hnone2 : ∀ j, ((Function.update s.pc i Phase.done) j).inCrit = false := by
      intro j
      by_cases hj : j = i
      · subst hj
        rw [Function.update_same]
        rfl
      · rw [Function.update_noteq hj]
        cases hcase : (s.pc j).inCrit
        · rfl
        · exact absurd (hme j i hcase hiC) hj
    have hptB : ∀ j, ((Function.update s.pc i Phase.done) j).postBody = (s.pc j).postBody := by
      intro j
      by_cases hj : j = i
      · subst hj
        rw [Function.update_same, hc]
        rfl
      · rw [Function.update_noteq hj]
    refine ⟨?_, ?_, ?_, ?_, hc0, ?_⟩
    · intro a b ha _
      dsimp only at ha
      rw [hnone2 a] at ha
      cases ha
    · dsimp only
      constructor
      · intro h
        cases h
      · rintro ⟨j, hj⟩
        rw [hnone2 j] at hj
        exact hj
    · dsimp only
      rw [filter_update_congr_phase succ true s.pc i Phase.done
        (by rw [hc]; exact Iff.rfl)]
      exact hup
    · dsimp only
      rw [filter_update_congr_phase succ false s.pc i Phase.done
        (by rw [hc]; exact Iff.rfl)]
      exact hfl
    · intro j hsj hb2
      dsimp only at hb2 ⊢
      rw [hptB j] at hb2
      exact hbody j hsj hb2

theorem MInv_reach {k : Nat} (ids : Fin k → String) (succ : Fin k → Bool)
    (c0 : List String) (s : MState k)
    (h : MReach ids succ (mInit k c0) s) : MInv ids succ c0 s := by
  induction h with
  | refl => exact MInv_init ids succ c0
  | tail hreach hstep ih => exact MInv_step ids succ c0 _ _ ih hstep

/-- C1: under every interleaving of the callers' event-loop steps, at
most one caller of `updateProgressAtomic` is inside its update function
at any instant (every other caller is spinning or finished), and no
counter update is lost: when all callers are done, `uploaded` and
`failed` hold the exact number of success and failure callers and every
successful caller's path is in the completed list. -/
theorem c1_mutual_exclusion :
    ∀ (k : Nat) (ids : Fin k → String) (succ : Fin k → Bool)
      (c0 : List String) (s : MState k),
      MReach ids succ (mInit k c0) s →
        mutualExclusion s
        ∧ ((∀ i, s.pc i = Phase.done) →
            s.uploaded = (Finset.univ.filter (fun i => succ i = true)).card
            ∧ s.failed = (Finset.univ.filter (fun i => succ i = false)).card
            ∧ (∀ i, succ i = true → ids i ∈ s.completedFiles)
            ∧ (∀ x ∈ c0, x ∈ s.completedFiles)) := by
  intro k ids succ c0 s hreach
  obtain ⟨hme, hmx, hup, hfl, hc0, hbody⟩ := MInv_reach ids succ c0 s hreach
  refine ⟨hme, ?_⟩
  intro hdone
  refine ⟨?_, ?_, ?_, hc0⟩
  · rw [hup]
    congr 1
    apply Finset.filter_congr
    intro j _
    rw [hdone j]
    simp [Phase.postCount]
  · rw [hfl]
    congr 1
    apply Finset.filter_congr
    intro j _
    rw [hdone j]
    simp [Phase.postCount]
  · intro i hsi
    exact hbody i hsi (by rw [hdone i]; rfl)

/-- Witness for C1: a state reached by one caller acquiring the mutex
still satisfies mutual exclusion. -/
theorem c1_witness :
    mutualExclusion
      { mutex := true,
        pc := Function.update (fun _ : Fin 1 => Phase.waiting) 0 Phase.entered,
        completedFiles := ["prior.json"], uploaded := 0, failed := 0 } :=
  (c1_mutual_exclusion 1 (fun _ => "aa1.json") (fun _ => true) ["prior.json"] _
    (MReach.tail (MReach.refl _) (MStep.acquire _ 0 rfl rfl))).1
